import Mathlib

/-
  Verification of prody/utilities/misctools.py (rangeString, dictElement,
  dictElementLoop) against its natural-language specification.

  The Python functions are shallowly embedded as executable Lean functions.
  Machine integers do not occur: the Python values are arbitrary-precision
  integers, lists, strings and XML elements, modelled by Int, List, String
  and an inductive Element type.  Fallible code paths (Python exceptions)
  are modelled with Option: a result of none means the Python call raises.
-/

set_option maxHeartbeats 1000000

namespace Misctools

/-
  Model of numpy.unique: the sorted list of the distinct values of the
  input list.  Implemented by repeated sorted insertion (insertUnique
  skips a value that is already present).
-/

def insertUnique (x : Int) : List Int → List Int
  | [] => [x]
  | y :: ys =>
    if x < y then x :: y :: ys
    else if x = y then y :: ys
    else y :: insertUnique x ys

def uniqueSorted (L : List Int) : List Int :=
  L.foldl (fun acc x => insertUnique x acc) []

/-
  The loop of rangeString that partitions the sorted distinct values into
  maximal runs: in the source, a new run is started exactly when the gap
  to the previous value is greater than 1 (`if i - prev > 1`), otherwise
  the value is appended to the current run.
-/

def splitRuns : List Int → List (List Int)
  | [] => []
  | [x] => [[x]]
  | x :: y :: xs =>
    if y - x > 1 then [x] :: splitRuns (y :: xs)
    else
      match splitRuns (y :: xs) with
      | [] => [[x]]
      | r :: rs => (x :: r) :: rs

/-
  Rendering of one run, from the final line of rangeString:
  `str(l[0]) if len(l) == 1 else str(l[0]) + rng + str(l[-1] + exc)`
  with exc coerced to the integer 0 or 1.
-/

def renderRun (rng : String) (exc : Bool) : List Int → String
  | [] => ""
  | [x] => toString x
  | x :: y :: xs =>
    toString x ++ rng ++ toString (List.getLastD xs y + (if exc then (1 : Int) else 0))

/-
  The control flow of rangeString up to the list of runs.
  - empty input after numpy.unique: the function returns the empty string
    (zero runs);
  - when pos is set and the minimum is negative, the strictly negative
    values are dropped (`ints = ints[ints > -1]`);
  - if that filter leaves nothing, the source evaluates `prev = ints[0]`
    on an empty array, an IndexError: modelled as none.
-/

def rangeStringRunsCore (pos : Bool) : List Int → Option (List (List Int))
  | [] => some []
  | a :: rest =>
    if pos && decide (a < 0) then
      match (a :: rest).filter (fun i => decide (-1 < i)) with
      | [] => none
      | b :: more => some (splitRuns (b :: more))
    else some (splitRuns (a :: rest))

def rangeStringRuns (lint : List Int) (pos : Bool) : Option (List (List Int)) :=
  rangeStringRunsCore pos (uniqueSorted lint)

def rangeString (lint : List Int) (sep rng : String) (exc pos : Bool) : Option String :=
  (rangeStringRuns lint pos).map
    (fun runs => String.intercalate sep (runs.map (renderRun rng exc)))

/-
  Expansion of one rendered range back to its member integers: with
  exc = false the rendered text shows the first and the last member, so
  the range denotes the closed integer interval between them; a singleton
  rendering denotes the one-element interval.
-/

def intervalInts (a b : Int) : List Int :=
  (List.range (b - a + 1).toNat).map (fun (k : Nat) => a + (k : Int))

def expandRange : List Int → List Int
  | [] => []
  | x :: xs => intervalInts x (List.getLastD xs x)

/- Lemmas about uniqueSorted. -/

theorem mem_insertUnique (a x : Int) :
    ∀ (l : List Int), a ∈ insertUnique x l ↔ a = x ∨ a ∈ l
  | [] => by simp [insertUnique]
  | y :: ys => by
    by_cases h1 : x < y
    · simp [insertUnique, h1]
    · by_cases h2 : x = y
      · subst h2
        rw [insertUnique, if_neg h1, if_pos rfl]
        simp only [List.mem_cons]
        tauto
      · have ih := mem_insertUnique a x ys
        simp only [insertUnique, if_neg h1, if_neg h2, List.mem_cons, ih]
        tauto

theorem sorted_insertUnique (x : Int) :
    ∀ (l : List Int), l.Sorted (· < ·) → (insertUnique x l).Sorted (· < ·)
  | [], _ => by simp [insertUnique]
  | y :: ys, h => by
    rw [List.sorted_cons] at h
    by_cases h1 : x < y
    · rw [insertUnique, if_pos h1, List.sorted_cons]
      refine ⟨?_, List.sorted_cons.mpr h⟩
      intro b hb
      rcases List.mem_cons.mp hb with hb | hb
      · omega
      · exact lt_trans h1 (h.1 b hb)
    · by_cases h2 : x = y
      · rw [insertUnique, if_neg h1, if_pos h2]
        exact List.sorted_cons.mpr h
      · rw [insertUnique, if_neg h1, if_neg h2, List.sorted_cons]
        refine ⟨?_, sorted_insertUnique x ys h.2⟩
        intro b hb
        rcases (mem_insertUnique b x ys).mp hb with hb | hb
        · omega
        · exact h.1 b hb

theorem sorted_foldl_insertUnique :
    ∀ (L acc : List Int), acc.Sorted (· < ·) →
      (L.foldl (fun acc x => insertUnique x acc) acc).Sorted (· < ·)
  | [], _, h => h
  | x :: xs, acc, h =>
    sorted_foldl_insertUnique xs (insertUnique x acc) (sorted_insertUnique x acc h)

theorem mem_foldl_insertUnique (a : Int) :
    ∀ (L acc : List Int),
      a ∈ L.foldl (fun acc x => insertUnique x acc) acc ↔ a ∈ acc ∨ a ∈ L
  | [], acc => by simp
  | x :: xs, acc => by
    rw [List.foldl_cons, mem_foldl_insertUnique a xs (insertUnique x acc),
      mem_insertUnique a x acc]
    simp only [List.mem_cons]
    tauto

theorem uniqueSorted_sorted (L : List Int) : (uniqueSorted L).Sorted (· < ·) :=
  sorted_foldl_insertUnique L [] (by simp)

theorem mem_uniqueSorted (a : Int) (L : List Int) : a ∈ uniqueSorted L ↔ a ∈ L := by
  rw [uniqueSorted, mem_foldl_insertUnique a L []]
  simp

/- uniqueSorted is the identity on a strictly sorted list. -/

theorem insertUnique_gt (x : Int) :
    ∀ (acc : List Int), (∀ y ∈ acc, y < x) → insertUnique x acc = acc ++ [x]
  | [], _ => rfl
  | y :: ys, h => by
    have hy : y < x := h y (by simp)
    rw [insertUnique, if_neg (by omega), if_neg (by omega),
      insertUnique_gt x ys (fun z hz => h z (List.mem_cons_of_mem _ hz))]
    rfl

theorem foldl_insertUnique_sorted_id :
    ∀ (l acc : List Int), (acc ++ l).Sorted (· < ·) →
      l.foldl (fun acc x => insertUnique x acc) acc = acc ++ l
  | [], acc, _ => by simp
  | x :: l', acc, h => by
    have hx : ∀ y ∈ acc, y < x := by
      intro y hy
      rcases List.pairwise_append.mp h with ⟨_, _, hrel⟩
      exact hrel y hy x (by simp)
    rw [List.foldl_cons, insertUnique_gt x acc hx,
      foldl_insertUnique_sorted_id l' (acc ++ [x])
        (by rw [List.append_assoc]; exact h),
      List.append_assoc]
    rfl

theorem uniqueSorted_sorted_id (l : List Int) (h : l.Sorted (· < ·)) :
    uniqueSorted l = l :=
  foldl_insertUnique_sorted_id l [] (by simpa using h)

/- Lemmas about splitRuns. -/

theorem splitRuns_join : ∀ (xs : List Int), (splitRuns xs).flatten = xs
  | [] => rfl
  | [x] => rfl
  | x :: y :: xs => by
    have ih := splitRuns_join (y :: xs)
    rw [splitRuns]
    by_cases h : y - x > 1
    · rw [if_pos h]
      simp only [List.flatten_cons, ih]
      rfl
    · rw [if_neg h]
      cases hs : splitRuns (y :: xs) with
      | nil => rw [hs] at ih; simp at ih
      | cons r rs =>
        rw [hs] at ih
        simp only [List.flatten_cons] at ih ⊢
        rw [List.cons_append, ih]

theorem splitRuns_cons_ne_nil (x : Int) (xs : List Int) : splitRuns (x :: xs) ≠ [] := by
  cases xs with
  | nil => simp [splitRuns]
  | cons y ys =>
    rw [splitRuns]
    by_cases h : y - x > 1
    · rw [if_pos h]; simp
    · rw [if_neg h]
      cases hs : splitRuns (y :: ys) <;> simp

theorem splitRuns_head (x : Int) (xs : List Int) (r : List Int) (rs : List (List Int))
    (h : splitRuns (x :: xs) = r :: rs) : ∃ t, r = x :: t := by
  cases xs with
  | nil =>
    rw [splitRuns] at h
    injection h with h1 _
    exact ⟨[], h1.symm⟩
  | cons y ys =>
    rw [splitRuns] at h
    by_cases hg : y - x > 1
    · rw [if_pos hg] at h
      injection h with h1 _
      exact ⟨[], h1.symm⟩
    · rw [if_neg hg] at h
      cases hs : splitRuns (y :: ys) with
      | nil =>
        rw [hs] at h
        injection h with h1 _
        exact ⟨[], h1.symm⟩
      | cons r0 rs0 =>
        rw [hs] at h
        injection h with h1 _
        exact ⟨r0, h1.symm⟩

theorem splitRuns_consecutive :
    ∀ (x : Int) (r : List Int), List.Chain' (fun p q => q = p + 1) (x :: r) →
      splitRuns (x :: r) = [x :: r]
  | _, [], _ => rfl
  | x, y :: r', h => by
    obtain ⟨hxy, h'⟩ := List.chain'_cons.mp h
    rw [splitRuns, if_neg (by omega), splitRuns_consecutive y r' h']

theorem splitRuns_chain :
    ∀ (xs : List Int), List.Chain' (· < ·) xs →
      ∀ r ∈ splitRuns xs, List.Chain' (fun p q => q = p + 1) r
  | [], _ => by simp [splitRuns]
  | [x], _ => by
    intro r hr
    rw [splitRuns] at hr
    simp only [List.mem_singleton] at hr
    subst hr
    simp
  | x :: y :: xs, h => by
    obtain ⟨hxy, h'⟩ := List.chain'_cons.mp h
    intro r hr
    rw [splitRuns] at hr
    by_cases hg : y - x > 1
    · rw [if_pos hg] at hr
      rcases List.mem_cons.mp hr with rfl | hmem
      · simp
      · exact splitRuns_chain (y :: xs) h' r hmem
    · rw [if_neg hg] at hr
      cases hs : splitRuns (y :: xs) with
      | nil => exact absurd hs (splitRuns_cons_ne_nil y xs)
      | cons r0 rs0 =>
        rw [hs] at hr
        obtain ⟨t, ht⟩ := splitRuns_head y xs r0 rs0 hs
        rcases List.mem_cons.mp hr with rfl | hmem
        · have hc := splitRuns_chain (y :: xs) h' r0
            (by rw [hs]; exact List.mem_cons_self _ _)
          subst ht
          exact List.chain'_cons.mpr ⟨by omega, hc⟩
        · exact splitRuns_chain (y :: xs) h' r
            (by rw [hs]; exact List.mem_cons_of_mem _ hmem)

/- Expanding a consecutive run reproduces the run itself. -/

theorem le_getLastD_chain :
    ∀ (t : List Int) (y : Int),
      List.Chain' (fun p q => q = p + 1) (y :: t) → y ≤ List.getLastD t y
  | [], _, _ => le_refl _
  | z :: t', y, h => by
    obtain ⟨hyz, h'⟩ := List.chain'_cons.mp h
    rw [List.getLastD_cons]
    have := le_getLastD_chain t' z h'
    omega

theorem intervalInts_cons (x b : Int) (h : x + 1 ≤ b) :
    intervalInts x b = x :: intervalInts (x + 1) b := by
  unfold intervalInts
  have h1 : (b - x + 1).toNat = (b - (x + 1) + 1).toNat + 1 := by omega
  rw [h1, List.range_succ_eq_map, List.map_cons, List.map_map]
  refine congrArg₂ (· :: ·) (by simp) ?_
  apply List.map_congr_left
  intro k _
  simp only [Function.comp_apply]
  push_cast
  ring

theorem expandRange_chain :
    ∀ (r : List Int), List.Chain' (fun p q => q = p + 1) r → expandRange r = r
  | [], _ => rfl
  | [x], _ => by
    simp [expandRange, intervalInts, List.range_succ]
  | x :: y :: t, h => by
    obtain ⟨hxy, ht⟩ := List.chain'_cons.mp h
    have hyb : y ≤ List.getLastD t y := le_getLastD_chain t y ht
    have ih := expandRange_chain (y :: t) ht
    show intervalInts x (List.getLastD (y :: t) x) = x :: y :: t
    rw [List.getLastD_cons, intervalInts_cons x _ (by omega)]
    have hx1 : x + 1 = y := by omega
    rw [hx1]
    simp only [expandRange, List.getLastD_cons] at ih
    rw [ih]

/--
Claim C1: for every finite integer collection L, if rangeString (with
exc = false, under which a rendered range denotes the closed interval
between its displayed endpoints) produces its list of runs, then the
concatenation of the expansions of the rendered ranges is strictly sorted
(hence the runs are disjoint and ordered) and contains exactly the
distinct members of L that survive the non-negative filter when pos is
enabled, i.e. it equals sorted(set(L)) after the filter.
-/
theorem rangeString_roundtrip (L : List Int) (pos : Bool) (runs : List (List Int))
    (h : rangeStringRuns L pos = some runs) :
    List.Sorted (· < ·) ((runs.map expandRange).flatten) ∧
    (∀ x : Int, x ∈ (runs.map expandRange).flatten ↔ x ∈ L ∧ (pos = true → 0 ≤ x)) := by
  rw [rangeStringRuns] at h
  cases hu : uniqueSorted L with
  | nil =>
    rw [hu, rangeStringRunsCore] at h
    simp only [Option.some.injEq] at h
    subst h
    constructor
    · simp
    · intro x
      simp only [List.map_nil, List.flatten_nil, List.not_mem_nil, false_iff]
      intro hx
      have := (mem_uniqueSorted x L).mpr hx.1
      rw [hu] at this
      simp at this
  | cons a rest =>
    rw [hu, rangeStringRunsCore] at h
    have hsorted : (a :: rest).Sorted (· < ·) := by
      rw [← hu]; exact uniqueSorted_sorted L
    have hmema : ∀ x : Int, x ∈ a :: rest ↔ x ∈ L := by
      intro x
      rw [← hu, mem_uniqueSorted]
    have hmin : ∀ x ∈ a :: rest, a ≤ x := by
      intro x hx
      rcases List.mem_cons.mp hx with rfl | hx
      · exact le_refl _
      · exact le_of_lt ((List.sorted_cons.mp hsorted).1 x hx)
    by_cases hpos : (pos && decide (a < 0)) = true
    · rw [if_pos hpos] at h
      have hpos' : pos = true ∧ a < 0 := by simpa using hpos
      have hposT : pos = true := hpos'.1
      have hfs : ((a :: rest).filter (fun i => decide (-1 < i))).Sorted (· < ·) :=
        List.Pairwise.filter (fun i => decide (-1 < i)) hsorted
    -- the filtered list is either empty (then h is a contradiction) or a cons
      cases hfil : (a :: rest).filter (fun i => decide (-1 < i)) with
      | nil => rw [hfil] at h; simp at h
      | cons b more =>
        rw [hfil] at h
        simp only [Option.some.injEq] at h
        subst h
        have hchain : List.Chain' (· < ·) (b :: more) := by
          rw [List.chain'_iff_pairwise, ← hfil]
          exact hfs
        have hexp : (splitRuns (b :: more)).map expandRange = splitRuns (b :: more) := by
          rw [List.map_congr_left (fun r hr => expandRange_chain r
            (splitRuns_chain (b :: more) hchain r hr))]
          exact List.map_id _
        rw [hexp, splitRuns_join]
        constructor
        · rw [← hfil]; exact hfs
        · intro x
          rw [← hfil, List.mem_filter]
          simp only [decide_eq_true_eq, hmema]
          constructor
          · rintro ⟨hxL, hx⟩
            exact ⟨hxL, fun _ => by omega⟩
          · rintro ⟨hxL, hx⟩
            exact ⟨hxL, by have := hx hposT; omega⟩
    · rw [if_neg hpos] at h
      simp only [Option.some.injEq] at h
      subst h
      have hchain : List.Chain' (· < ·) (a :: rest) := by
        rw [List.chain'_iff_pairwise]
        exact hsorted
      have hexp : (splitRuns (a :: rest)).map expandRange = splitRuns (a :: rest) := by
        rw [List.map_congr_left (fun r hr => expandRange_chain r
          (splitRuns_chain (a :: rest) hchain r hr))]
        exact List.map_id _
      rw [hexp, splitRuns_join]
      refine ⟨hsorted, ?_⟩
      intro x
      rw [hmema]
      constructor
      · intro hxL
        refine ⟨hxL, ?_⟩
        intro hposT
        have hxmem : x ∈ a :: rest := (hmema x).mpr hxL
        have hax := hmin x hxmem
        have hnot : ¬ (pos = true ∧ a < 0) := by
          intro hc
          exact hpos (by simp [hc.1, hc.2])
        have ha0 : 0 ≤ a := by
          by_contra hneg
          exact hnot ⟨hposT, by omega⟩
        omega
      · exact fun hx => hx.1

/-- Witness for C1 at the concrete input L = [10, 1, 2] with pos enabled. -/
theorem rangeString_roundtrip_witness :
    List.Sorted (· < ·) (([[(1 : Int), 2], [10]].map expandRange).flatten) ∧
    ((5 : Int) ∈ ([[(1 : Int), 2], [10]].map expandRange).flatten ↔
      (5 : Int) ∈ [(10 : Int), 1, 2] ∧ (true = true → (0 : Int) ≤ 5)) :=
  ⟨(rangeString_roundtrip [10, 1, 2] true [[1, 2], [10]] (by decide)).1,
   (rangeString_roundtrip [10, 1, 2] true [[1, 2], [10]] (by decide)).2 5⟩

/--
Claim C3 (code bug): for every non-empty collection whose values are all
negative, rangeString with pos enabled does NOT return the empty string:
the filter `ints[ints > -1]` leaves an empty array and the subsequent
`prev = ints[0]` raises IndexError, modelled here as the result none.
-/
theorem rangeString_allNegative_raises (L : List Int) (sep rng : String) (exc : Bool)
    (hne : L ≠ []) (hneg : ∀ x ∈ L, x < 0) :
    rangeString L sep rng exc true = none := by
  have hune : uniqueSorted L ≠ [] := by
    intro hu
    cases L with
    | nil => exact hne rfl
    | cons a L' =>
      have : a ∈ uniqueSorted (a :: L') := (mem_uniqueSorted a (a :: L')).mpr (by simp)
      rw [hu] at this
      simp at this
  cases hu : uniqueSorted L with
  | nil => exact absurd hu hune
  | cons a rest =>
    have ha : a < 0 := by
      have : a ∈ uniqueSorted L := by rw [hu]; simp
      exact hneg a ((mem_uniqueSorted a L).mp this)
    have hfil : (a :: rest).filter (fun i => decide (-1 < i)) = [] := by
      rw [List.filter_eq_nil_iff]
      intro x hx
      have hxL : x ∈ L := (mem_uniqueSorted x L).mp (by rw [hu]; exact hx)
      have := hneg x hxL
      simp only [decide_eq_true_eq]
      omega
    rw [rangeString, rangeStringRuns, hu, rangeStringRunsCore,
      if_pos (show (true && decide (a < 0)) = true by simpa using ha), hfil]
    rfl

/-- Witness for C3 at the concrete all-negative input [-3, -1]. -/
theorem rangeString_allNegative_raises_witness :
    rangeString [-3, -1] " " " to " false true = none :=
  rangeString_allNegative_raises [-3, -1] " " " to " false (by decide) (by decide)

/--
Claim C4 (counterexample): rangeString([-3, -1, 0, 1]) with the defaults
does not return the string claimed by the specification, because 0 and 1
form one consecutive run and are rendered with the range symbol.
-/
theorem rangeString_negExample_ctr :
    ¬ rangeString [-3, -1, 0, 1] " " " to " false true = some "0 1" := by decide

/--
Claim C4 (amended): rangeString([-3, -1, 0, 1]) with the non-negative
restriction enabled and the default separator and range symbol returns
the string "0 to 1".
-/
theorem rangeString_negExample :
    rangeString [-3, -1, 0, 1] " " " to " false true = some "0 to 1" := by decide

/--
Claim C5: a run of length 1 renders as the decimal string of its value
with no range symbol and no exclusivity adjustment; a run of length at
least 2 renders as first, range symbol, then last plus 1 exactly when exc
is set; and rangeString([1,2,3,4,10,15,16,17], ",", ":", exc=True)
returns "1:5,10,15:18".
-/
theorem rangeString_rendering :
    (∀ (a : Int) (sep rng : String) (exc : Bool), 0 ≤ a →
      rangeString [a] sep rng exc true = some (toString a)) ∧
    (∀ (x : Int) (r : List Int) (sep rng : String) (exc : Bool),
      0 ≤ x → r ≠ [] → List.Chain' (fun p q => q = p + 1) (x :: r) →
      rangeString (x :: r) sep rng exc true =
        some (toString x ++ rng ++
          toString (List.getLastD r x + (if exc then 1 else 0)))) ∧
    rangeString [1, 2, 3, 4, 10, 15, 16, 17] "," ":" true true = some "1:5,10,15:18" := by
  refine ⟨?_, ?_, by decide⟩
  · intro a sep rng exc ha
    have hu : uniqueSorted [a] = [a] := rfl
    have hcond : ¬ ((true && decide (a < 0)) = true) := by
      simp only [Bool.true_and, decide_eq_true_eq]
      omega
    rw [rangeString, rangeStringRuns, hu, rangeStringRunsCore, if_neg hcond]
    rfl
  · intro x r sep rng exc hx hr hchain
    have hsorted : (x :: r).Sorted (· < ·) :=
      List.chain'_iff_pairwise.mp (List.Chain'.imp (fun a b hab => by omega) hchain)
    have hu : uniqueSorted (x :: r) = x :: r := uniqueSorted_sorted_id _ hsorted
    have hcond : ¬ ((true && decide (x < 0)) = true) := by
      simp only [Bool.true_and, decide_eq_true_eq]
      omega
    rw [rangeString, rangeStringRuns, hu, rangeStringRunsCore, if_neg hcond,
      splitRuns_consecutive x r hchain]
    cases r with
    | nil => exact absurd rfl hr
    | cons y xs =>
      rw [List.getLastD_cons]
      rfl

/-- Witness for C5 applying both universal conjuncts at concrete inputs. -/
theorem rangeString_rendering_witness :
    rangeString [(3 : Int)] " " " to " false true = some (toString (3 : Int)) ∧
    rangeString [(7 : Int), 8, 9] "," "-" true true =
      some (toString (7 : Int) ++ "-" ++
        toString (List.getLastD [(8 : Int), 9] 7 + (if true then 1 else 0))) :=
  ⟨rangeString_rendering.1 3 " " " to " false (by decide),
   rangeString_rendering.2.1 7 [8, 9] "," "-" true (by decide) (by decide)
     (by
       show List.Chain (fun p q => q = p + 1) 7 [8, 9]
       exact List.Chain.cons (by decide) (List.Chain.cons (by decide) List.Chain.nil))⟩

/-
  Model of xml.etree.ElementTree.Element as used by dictElement and
  dictElementLoop: a tag, an ordered attribute list (child.items()), an
  optional text, and an ordered list of children (len(child) counts the
  children; iterating an element yields its children).
-/

inductive Element : Type where
  | mk (tag : String) (attrib : List (String × String)) (text : Option String)
      (children : List Element)

def Element.tag : Element → String
  | .mk t _ _ _ => t

def Element.attrib : Element → List (String × String)
  | .mk _ a _ _ => a

def Element.text : Element → Option String
  | .mk _ _ tx _ => tx

def Element.children : Element → List Element
  | .mk _ _ _ c => c

/-
  The values a dictElement / dictElementLoop mapping can hold: a text
  string, an attribute list, an element, or (after dictElementLoop) a
  nested mapping.
-/

inductive Value : Type where
  | text (s : String)
  | attrs (l : List (String × String))
  | elem (e : Element)
  | dict (d : List (String × Value))

/-
  The per-child value of dictElement: a child with no children yields its
  text, or its attribute list when the text is None; a child with
  children is itself the value.
-/

def childValue (c : Element) : Value :=
  match c.children with
  | [] =>
    match c.text with
    | none => Value.attrs c.attrib
    | some t => Value.text t
  | _ :: _ => Value.elem c

/-
  Python dict assignment d[k] = v on an insertion-ordered dict: an
  existing key keeps its position and gets the new value, a new key is
  appended at the end.
-/

def dictInsert (k : String) (v : Value) : List (String × Value) → List (String × Value)
  | [] => [(k, v)]
  | (k0, v0) :: rest => if k0 = k then (k, v) :: rest else (k0, v0) :: dictInsert k v rest

def lookupD : List (String × Value) → String → Option Value
  | [], _ => none
  | (k0, v) :: rest, k => if k0 = k then some v else lookupD rest k

/-
  Key derivation: `if length and tag.startswith(prefix): tag = tag[length:]`
  strips the prefix only when the prefix argument is a string (modelled as
  some p), is non-empty (len(prefix) is truthy) and the tag starts with it.
-/

def stripTag (pre : Option String) (t : String) : String :=
  match pre with
  | none => t
  | some p => if p.length ≠ 0 ∧ t.startsWith p then t.drop p.length else t

/- Python format string of width 4, right justified: `{0:>4}`. -/

def rjust4 (s : String) : String :=
  String.mk (List.replicate (4 - s.length) ' ') ++ s

/-
  The loop of dictElement.  State: prev_tag (initially the empty string)
  and the run counter i.  The counter is a Python local that is assigned
  only in the `tag != prev_tag` branch; before the first such assignment
  it is unbound, so `i += 1` raises UnboundLocalError.  The unbound state
  is modelled as none, and the raise as result none.
-/

def dictElementAux (pre : Option String) (nm : Bool) :
    List Element → String → Option Nat → List (String × Value) →
      Option (List (String × Value))
  | [], _, _, d => some d
  | c :: cs, prevTag, i, d =>
    let tag := stripTag pre c.tag
    if tag ≠ prevTag then
      let key := if nm then tag ++ rjust4 (toString (0 : Nat)) else tag
      dictElementAux pre nm cs tag (some 0) (dictInsert key (childValue c) d)
    else
      match i with
      | none => none
      | some j =>
        let key := if nm then tag ++ rjust4 (toString (j + 1)) else tag
        dictElementAux pre nm cs tag (some (j + 1)) (dictInsert key (childValue c) d)

def dictElement (e : Element) (pre : Option String) (nm : Bool) :
    Option (List (String × Value)) :=
  dictElementAux pre nm e.children "" none []

/-
  The same loop, but recording the (key, value) pair produced for every
  child in sibling order, without the overwriting dict assignment.
  dictElement is the fold of dictInsert over this list (proved below).
-/

def childBindingsAux (pre : Option String) (nm : Bool) :
    List Element → String → Option Nat → Option (List (String × Value))
  | [], _, _ => some []
  | c :: cs, prevTag, i =>
    let tag := stripTag pre c.tag
    if tag ≠ prevTag then
      let key := if nm then tag ++ rjust4 (toString (0 : Nat)) else tag
      (childBindingsAux pre nm cs tag (some 0)).map
        (fun bs => (key, childValue c) :: bs)
    else
      match i with
      | none => none
      | some j =>
        let key := if nm then tag ++ rjust4 (toString (j + 1)) else tag
        (childBindingsAux pre nm cs tag (some (j + 1))).map
          (fun bs => (key, childValue c) :: bs)

def childBindings (e : Element) (pre : Option String) (nm : Bool) :
    Option (List (String × Value)) :=
  childBindingsAux pre nm e.children "" none

/-
  dictElementLoop under Python 3 semantics.  The source:

    for orig_key in keys:
        item = dict_[orig_key]                     -- KeyError propagates
        if isinstance(item, Element):
            dict2 = dictElement(dict_[orig_key], prefix, number_multiples)
            finished = False
            while not finished:
                dict3 = dict2.copy()
                try:
                    key = dict2.keys()[0]          -- Python 3: dict_keys is
                    ...                            -- not subscriptable, so
                except:                            -- TypeError is raised and
                    finished = True                -- caught at once
                else:
                    ...
            dict_[orig_key] = dict2

  Under Python 3 the try body raises TypeError on its first line in every
  iteration, the bare except catches it and the while loop stops with
  dict2 still the one-level dictElement result.  The loop body therefore
  replaces an Element value by its one-level flattening; the KeyError of
  a missing key and an exception raised by the dictElement call itself
  are outside the try and propagate (modelled as none).
-/

def dictElementLoopAux (pre : Option String) (nm : Bool) :
    List String → List (String × Value) → Option (List (String × Value))
  | [], d => some d
  | k :: ks, d =>
    match lookupD d k with
    | none => none
    | some (Value.elem e) =>
      match dictElement e pre nm with
      | none => none
      | some d2 => dictElementLoopAux pre nm ks (dictInsert k (Value.dict d2) d)
    | some _ => dictElementLoopAux pre nm ks d

/-
  keys=None (or an empty selection, which is falsy) selects all keys of
  the mapping; the key set never changes during the loop, so taking the
  snapshot up front is faithful.
-/

def dictElementLoop (d : List (String × Value)) (keys : Option (List String))
    (pre : Option String) (nm : Bool) : Option (List (String × Value)) :=
  match keys with
  | none => dictElementLoopAux pre nm (d.map Prod.fst) d
  | some [] => dictElementLoopAux pre nm (d.map Prod.fst) d
  | some (k :: ks) => dictElementLoopAux pre nm (k :: ks) d

/- dictElement is the overwriting fold of the per-child bindings. -/

theorem dictElementAux_eq_fold (pre : Option String) (nm : Bool) :
    ∀ (cs : List Element) (prevTag : String) (i : Option Nat) (d : List (String × Value)),
      dictElementAux pre nm cs prevTag i d =
        (childBindingsAux pre nm cs prevTag i).map
          (fun bs => bs.foldl (fun d kv => dictInsert kv.1 kv.2 d) d)
  | [], _, _, _ => rfl
  | c :: cs, prevTag, i, d => by
    simp only [dictElementAux, childBindingsAux]
    by_cases h : stripTag pre c.tag ≠ prevTag
    · simp only [if_pos h]
      rw [dictElementAux_eq_fold pre nm cs]
      cases childBindingsAux pre nm cs (stripTag pre c.tag) (some 0) with
      | none => rfl
      | some bs => rfl
    · simp only [if_neg h]
      cases i with
      | none => rfl
      | some j =>
        dsimp only
        rw [dictElementAux_eq_fold pre nm cs]
        cases childBindingsAux pre nm cs (stripTag pre c.tag) (some (j + 1)) with
        | none => rfl
        | some bs => rfl

theorem childBindings_eq (e : Element) (pre : Option String) (nm : Bool) :
    dictElement e pre nm =
      (childBindings e pre nm).map
        (fun bs => bs.foldl (fun d kv => dictInsert kv.1 kv.2 d) []) :=
  dictElementAux_eq_fold pre nm e.children "" none []

theorem childBindingsAux_length (pre : Option String) (nm : Bool) :
    ∀ (cs : List Element) (prevTag : String) (i : Option Nat)
      (bs : List (String × Value)),
      childBindingsAux pre nm cs prevTag i = some bs → bs.length = cs.length
  | [], _, _, bs => by
    intro h
    simp only [childBindingsAux, Option.some.injEq] at h
    subst h
    rfl
  | c :: cs, prevTag, i, bs => by
    intro h
    simp only [childBindingsAux] at h
    by_cases hc : stripTag pre c.tag ≠ prevTag
    · rw [if_pos hc] at h
      cases hb : childBindingsAux pre nm cs (stripTag pre c.tag) (some 0) with
      | none => rw [hb] at h; simp at h
      | some bs0 =>
        rw [hb] at h
        simp only [Option.map_some', Option.some.injEq] at h
        subst h
        simp [childBindingsAux_length pre nm cs _ _ bs0 hb]
    · rw [if_neg hc] at h
      cases i with
      | none => simp at h
      | some j =>
        dsimp only at h
        cases hb : childBindingsAux pre nm cs (stripTag pre c.tag) (some (j + 1)) with
        | none => rw [hb] at h; simp at h
        | some bs0 =>
          rw [hb] at h
          simp only [Option.map_some', Option.some.injEq] at h
          subst h
          simp [childBindingsAux_length pre nm cs _ _ bs0 hb]

theorem childBindingsAux_snd (pre : Option String) (nm : Bool) :
    ∀ (cs : List Element) (prevTag : String) (i : Option Nat)
      (bs : List (String × Value)),
      childBindingsAux pre nm cs prevTag i = some bs →
      bs.map Prod.snd = cs.map childValue
  | [], _, _, bs => by
    intro h
    simp only [childBindingsAux, Option.some.injEq] at h
    subst h
    rfl
  | c :: cs, prevTag, i, bs => by
    intro h
    simp only [childBindingsAux] at h
    by_cases hc : stripTag pre c.tag ≠ prevTag
    · rw [if_pos hc] at h
      cases hb : childBindingsAux pre nm cs (stripTag pre c.tag) (some 0) with
      | none => rw [hb] at h; simp at h
      | some bs0 =>
        rw [hb] at h
        simp only [Option.map_some', Option.some.injEq] at h
        subst h
        simp [childBindingsAux_snd pre nm cs _ _ bs0 hb]
    · rw [if_neg hc] at h
      cases i with
      | none => simp at h
      | some j =>
        dsimp only at h
        cases hb : childBindingsAux pre nm cs (stripTag pre c.tag) (some (j + 1)) with
        | none => rw [hb] at h; simp at h
        | some bs0 =>
          rw [hb] at h
          simp only [Option.map_some', Option.some.injEq] at h
          subst h
          simp [childBindingsAux_snd pre nm cs _ _ bs0 hb]

/- Lemmas about dictInsert. -/

theorem dictInsert_length_le (k : String) (v : Value) :
    ∀ (d : List (String × Value)), (dictInsert k v d).length ≤ d.length + 1
  | [] => by simp [dictInsert]
  | (k0, v0) :: rest => by
    rw [dictInsert]
    by_cases h : k0 = k
    · rw [if_pos h]
      simp
    · rw [if_neg h]
      have := dictInsert_length_le k v rest
      simp only [List.length_cons]
      omega

theorem dictInsert_of_not_mem (k : String) (v : Value) :
    ∀ (d : List (String × Value)), k ∉ d.map Prod.fst →
      dictInsert k v d = d ++ [(k, v)]
  | [], _ => rfl
  | (k0, v0) :: rest, h => by
    simp only [List.map_cons, List.mem_cons] at h
    push_neg at h
    rw [dictInsert, if_neg (fun hc => h.1 hc.symm), dictInsert_of_not_mem k v rest h.2]
    rfl

theorem lookupD_dictInsert (k : String) (v : Value) :
    ∀ (d : List (String × Value)) (k' : String),
      lookupD (dictInsert k v d) k' = if k = k' then some v else lookupD d k' := by
  intro d
  induction d with
  | nil => intro k'; simp [dictInsert, lookupD]
  | cons kv rest ih =>
    intro k'
    obtain ⟨k0, v0⟩ := kv
    by_cases h : k0 = k
    · subst h
      by_cases h' : k0 = k' <;> simp [dictInsert, lookupD, h']
    · by_cases h' : k0 = k'
      · subst h'
        simp [dictInsert, lookupD, h, Ne.symm h]
      · simp [dictInsert, lookupD, h, h', ih]

theorem lookupD_isSome_of_mem :
    ∀ (d : List (String × Value)) (k : String),
      k ∈ d.map Prod.fst → (lookupD d k).isSome
  | [], k => by simp
  | (k0, v0) :: rest, k => by
    intro h
    rw [lookupD]
    by_cases hk : k0 = k
    · rw [if_pos hk]; rfl
    · rw [if_neg hk]
      simp only [List.map_cons, List.mem_cons] at h
      rcases h with h | h
      · exact absurd h.symm hk
      · exact lookupD_isSome_of_mem rest k h

/- Lemmas about the overwriting fold. -/

theorem foldl_dictInsert_length_le :
    ∀ (bs d : List (String × Value)),
      (bs.foldl (fun d kv => dictInsert kv.1 kv.2 d) d).length ≤ d.length + bs.length
  | [], d => by simp
  | (k, v) :: bs, d => by
    rw [List.foldl_cons]
    have h1 := foldl_dictInsert_length_le bs (dictInsert k v d)
    have h2 := dictInsert_length_le k v d
    simp only [List.length_cons]
    omega

theorem foldl_dictInsert_nodup :
    ∀ (bs d : List (String × Value)),
      (d.map Prod.fst ++ bs.map Prod.fst).Nodup →
      bs.foldl (fun d kv => dictInsert kv.1 kv.2 d) d = d ++ bs
  | [], d, _ => by simp
  | (k, v) :: bs, d, h => by
    rw [List.foldl_cons]
    have hknot : k ∉ d.map Prod.fst := by
      have hd := (List.nodup_append.mp h).2.2
      intro hc
      exact hd hc (by simp)
    rw [dictInsert_of_not_mem k v d hknot]
    have hrest : ((d ++ [(k, v)]).map Prod.fst ++ bs.map Prod.fst).Nodup := by
      rw [List.map_append, List.append_assoc]
      exact h
    rw [foldl_dictInsert_nodup bs (d ++ [(k, v)]) hrest, List.append_assoc]
    rfl

/- Concrete elements used by the claims below. -/

def leafC : Element := .mk "c" [] none []

def elemB : Element := .mk "b" [] none [leafC]

def elemA : Element := .mk "a" [] none [elemB]

def twoXElem : Element :=
  .mk "r" [] none [.mk "x" [] (some "s") [], .mk "x" [] (some "t") []]

def emptyTagElem : Element := .mk "r" [] none [.mk "" [] none []]

/--
Claim C2 (code bug): dictElementLoop does not fully flatten. For the
mapping binding "k" to the element a whose child b itself has a child c,
the loop stores the one-level flattening of a, inside which b is still an
Element value with a child: under Python 3 the statement
dict2.keys()[0] raises TypeError at once, so the deepening loop never
recurses into nested elements.
-/
theorem dictElementLoop_leaves_nested_element :
    dictElementLoop [("k", Value.elem elemA)] none none false =
      some [("k", Value.dict [("b", Value.elem elemB)])] ∧
    lookupD [("b", Value.elem elemB)] "b" = some (Value.elem elemB) ∧
    elemB.children ≠ [] :=
  ⟨rfl, rfl, fun h => List.noConfusion h⟩

/--
Claim C6: in dictElement, for a node with exactly two children both
tagged "x", duplicate indexing produces the keys "x   0" and "x   1"
(tag plus zero-based index right justified to width 4) in sibling order;
without indexing the single key "x" holds the second child's value.
-/
theorem dictElement_duplicate_tags (e c1 c2 : Element)
    (hc : e.children = [c1, c2]) (h1 : c1.tag = "x") (h2 : c2.tag = "x") :
    dictElement e none true =
      some [("x   0", childValue c1), ("x   1", childValue c2)] ∧
    dictElement e none false = some [("x", childValue c2)] := by
  obtain ⟨t1, a1, x1, ch1⟩ := c1
  obtain ⟨t2, a2, x2, ch2⟩ := c2
  simp only [Element.tag] at h1 h2
  subst h1
  subst h2
  constructor
  · rw [dictElement, hc]
    rfl
  · rw [dictElement, hc]
    rfl

/-- Witness for C6 at two concrete children tagged "x". -/
theorem dictElement_duplicate_tags_witness :
    dictElement (.mk "r" [] none [.mk "x" [] (some "t1") [], .mk "x" [] (some "t2") []])
        none true =
      some [("x   0", Value.text "t1"), ("x   1", Value.text "t2")] ∧
    dictElement (.mk "r" [] none [.mk "x" [] (some "t1") [], .mk "x" [] (some "t2") []])
        none false =
      some [("x", Value.text "t2")] :=
  dictElement_duplicate_tags
    (.mk "r" [] none [.mk "x" [] (some "t1") [], .mk "x" [] (some "t2") []])
    (.mk "x" [] (some "t1") []) (.mk "x" [] (some "t2") []) rfl rfl rfl

/--
Claim C7 (amended): the mapping produced by dictElement has at most one
entry per child, because duplicate derived keys overwrite; the per-child
binding list has exactly one binding per child, and when the derived keys
are pairwise distinct the mapping has exactly one entry per child.
-/
theorem dictElement_entries_per_child (e : Element) (pre : Option String) (nm : Bool)
    (bs d : List (String × Value))
    (hb : childBindings e pre nm = some bs) (hd : dictElement e pre nm = some d) :
    bs.length = e.children.length ∧
    d.length ≤ e.children.length ∧
    ((bs.map Prod.fst).Nodup → d.length = e.children.length) := by
  have hlen := childBindingsAux_length pre nm e.children "" none bs hb
  have hfold := childBindings_eq e pre nm
  rw [hd, hb] at hfold
  simp only [Option.map_some', Option.some.injEq] at hfold
  refine ⟨hlen, ?_, ?_⟩
  · rw [hfold]
    have := foldl_dictInsert_length_le bs []
    simp only [List.length_nil, Nat.zero_add] at this
    omega
  · intro hnodup
    rw [hfold, foldl_dictInsert_nodup bs [] (by simpa using hnodup)]
    simpa using hlen

/--
Claim C7 (counterexample): a node with two children both tagged "x" and
indexing disabled yields a mapping with one entry, not one per child.
-/
theorem dictElement_entries_per_child_ctr :
    (dictElement twoXElem none false).map List.length = some 1 ∧
    twoXElem.children.length = 2 :=
  ⟨rfl, rfl⟩

/-- Witness for C7 at a node with two distinctly tagged children. -/
theorem dictElement_entries_per_child_witness :
    ([("x", Value.text "s"), ("y", Value.text "t")] :
        List (String × Value)).length =
      (Element.mk "r" [] none
        [.mk "x" [] (some "s") [], .mk "y" [] (some "t") []]).children.length ∧
    ([("x", Value.text "s"), ("y", Value.text "t")] :
        List (String × Value)).length ≤
      (Element.mk "r" [] none
        [.mk "x" [] (some "s") [], .mk "y" [] (some "t") []]).children.length ∧
    ((([("x", Value.text "s"), ("y", Value.text "t")] :
        List (String × Value)).map Prod.fst).Nodup →
      ([("x", Value.text "s"), ("y", Value.text "t")] :
        List (String × Value)).length =
        (Element.mk "r" [] none
          [.mk "x" [] (some "s") [], .mk "y" [] (some "t") []]).children.length) :=
  dictElement_entries_per_child
    (.mk "r" [] none [.mk "x" [] (some "s") [], .mk "y" [] (some "t") []])
    none false
    [("x", Value.text "s"), ("y", Value.text "t")]
    [("x", Value.text "s"), ("y", Value.text "t")]
    rfl rfl

/--
Claim C8 (amended): whenever dictElement returns, the binding produced
for a child with no children and no text is its attribute list (the
empty list when it has no attributes); in particular a single leaf child
with no text and no attributes yields the empty attribute list.  (When
the first child's derived tag is the empty string, dictElement instead
fails on the uninitialized run counter, see the counterexample.)
-/
theorem dictElement_leaf_attrs :
    (∀ (e : Element) (pre : Option String) (nm : Bool) (bs : List (String × Value)),
      childBindings e pre nm = some bs →
      bs.map Prod.snd = e.children.map childValue) ∧
    (∀ c : Element, c.children = [] → c.text = none →
      childValue c = Value.attrs c.attrib) ∧
    dictElement (.mk "r" [] none [.mk "x" [] none []]) none false =
      some [("x", Value.attrs [])] := by
  refine ⟨?_, ?_, rfl⟩
  · intro e pre nm bs hb
    exact childBindingsAux_snd pre nm e.children "" none bs hb
  · intro c h1 h2
    obtain ⟨t, a, tx, ch⟩ := c
    simp only [Element.children] at h1
    simp only [Element.text] at h2
    subst h1
    subst h2
    rfl

/--
Claim C8 (counterexample): an element whose only child is a leaf with
the empty tag, no text and no attributes makes dictElement fail (the
Python local i is still unbound when `i += 1` runs, an
UnboundLocalError), instead of binding the key to the empty attribute
list.
-/
theorem dictElement_leaf_attrs_ctr :
    dictElement emptyTagElem none false = none ∧
    emptyTagElem.children.map (fun c => (c.children, c.text, c.attrib)) =
      [([], none, [])] :=
  ⟨rfl, rfl⟩

/-- Witness for C8 applying the per-child binding value lemma. -/
theorem dictElement_leaf_attrs_witness :
    ([("x", Value.attrs [("a", "b")])] : List (String × Value)).map Prod.snd =
      (Element.mk "r" [] none [.mk "x" [("a", "b")] none []]).children.map childValue ∧
    childValue (.mk "x" [("a", "b")] none []) =
      Value.attrs (Element.mk "x" [("a", "b")] none []).attrib :=
  ⟨dictElement_leaf_attrs.1 (.mk "r" [] none [.mk "x" [("a", "b")] none []])
      none false [("x", Value.attrs [("a", "b")])] rfl,
   dictElement_leaf_attrs.2.1 (.mk "x" [("a", "b")] none []) rfl rfl⟩

/-
  Helper for C9: as long as every selected key is present and every
  Element value flattens successfully, the loop finishes and returns.
-/

theorem loopAux_isSome (pre : Option String) (nm : Bool) :
    ∀ (ks : List String) (d : List (String × Value)),
      (∀ k ∈ ks, (lookupD d k).isSome) →
      (∀ (k : String) (e : Element), lookupD d k = some (Value.elem e) →
        (dictElement e pre nm).isSome) →
      (dictElementLoopAux pre nm ks d).isSome
  | [], _, _, _ => rfl
  | k :: ks, d, h1, h2 => by
    rw [dictElementLoopAux]
    have hk := h1 k (by simp)
    cases hv : lookupD d k with
    | none => rw [hv] at hk; simp at hk
    | some v =>
      cases v with
      | text s =>
        exact loopAux_isSome pre nm ks d
          (fun k' hk' => h1 k' (List.mem_cons_of_mem _ hk')) h2
      | attrs l =>
        exact loopAux_isSome pre nm ks d
          (fun k' hk' => h1 k' (List.mem_cons_of_mem _ hk')) h2
      | dict d0 =>
        exact loopAux_isSome pre nm ks d
          (fun k' hk' => h1 k' (List.mem_cons_of_mem _ hk')) h2
      | elem e =>
        have he := h2 k e hv
        dsimp only
        cases hde : dictElement e pre nm with
        | none => rw [hde] at he; simp at he
        | some d2 =>
          have h1' : ∀ k' ∈ ks, (lookupD (dictInsert k (Value.dict d2) d) k').isSome := by
            intro k' hk'
            rw [lookupD_dictInsert]
            by_cases hkk : k = k'
            · rw [if_pos hkk]
              rfl
            · rw [if_neg hkk]
              exact h1 k' (List.mem_cons_of_mem _ hk')
          have h2' : ∀ (k' : String) (e' : Element),
              lookupD (dictInsert k (Value.dict d2) d) k' = some (Value.elem e') →
              (dictElement e' pre nm).isSome := by
            intro k' e' hke
            rw [lookupD_dictInsert] at hke
            by_cases hkk : k = k'
            · rw [if_pos hkk] at hke
              simp at hke
            · rw [if_neg hkk] at hke
              exact h2 k' e' hke
          exact loopAux_isSome pre nm ks (dictInsert k (Value.dict d2) d) h1' h2'

/--
Claim C9 (amended): failures raised inside the deepening while loop are
swallowed (under Python 3 that loop always fails at once, and the entry
is then set to the one-level flattening of its Element value, not left
unchanged); when every selected key is present in the mapping and every
Element value at a selected key flattens without error, no failure is
propagated to the caller.  A missing selected key, by contrast, raises
KeyError to the caller (see the counterexample).
-/
theorem dictElementLoop_failure_handling :
    (∀ (d : List (String × Value)) (ks : List String) (pre : Option String) (nm : Bool),
      (∀ k ∈ ks, (lookupD d k).isSome) →
      (∀ (k : String) (e : Element), lookupD d k = some (Value.elem e) →
        (dictElement e pre nm).isSome) →
      (dictElementLoop d (some ks) pre nm).isSome) ∧
    dictElementLoop [("a", Value.elem elemB)] (some ["a"]) none false =
      some [("a", Value.dict [("c", Value.attrs [])])] := by
  refine ⟨?_, rfl⟩
  intro d ks pre nm h1 h2
  cases ks with
  | nil =>
    rw [dictElementLoop]
    exact loopAux_isSome pre nm (d.map Prod.fst) d
      (fun k hk => lookupD_isSome_of_mem d k hk) h2
  | cons k ks =>
    rw [dictElementLoop]
    exact loopAux_isSome pre nm (k :: ks) d h1 h2

/--
Claim C9 (counterexample): the selection ["a"] over the empty mapping
makes dictElementLoop fail (the lookup dict_[orig_key] raises KeyError,
which is outside the try statement and propagates to the caller),
instead of skipping the key and returning the mapping unchanged.
-/
theorem dictElementLoop_failure_handling_ctr :
    dictElementLoop [] (some ["a"]) none false = none := rfl

/-- Witness for C9 on a mapping holding a plain text value. -/
theorem dictElementLoop_failure_handling_witness :
    (dictElementLoop [("a", Value.text "t")] (some ["a"]) none false).isSome :=
  dictElementLoop_failure_handling.1 [("a", Value.text "t")] ["a"] none false
    (by
      intro k hk
      rw [List.mem_singleton] at hk
      subst hk
      rfl)
    (by
      intro k e h
      by_cases hk : "a" = k
      · rw [lookupD, if_pos hk] at h
        simp at h
      · rw [lookupD, if_neg hk] at h
        rw [lookupD] at h
        simp at h)

/--
Claim C10: with duplicate indexing enabled every derived key carries the
width-4 suffix, a tag occurring once getting "   0"; the counter follows
consecutive runs only, resetting when the tag differs from the previous
sibling's, so for sibling tags x, y, x the two non-adjacent x children
both get index 0 and the later entry overwrites the earlier one.
-/
theorem dictElement_run_indexing :
    (∀ (e c : Element), e.children = [c] → c.tag ≠ "" →
      dictElement e none true = some [(c.tag ++ "   0", childValue c)]) ∧
    (∀ (e c1 c2 c3 : Element), e.children = [c1, c2, c3] →
      c1.tag = "x" → c2.tag = "y" → c3.tag = "x" →
      dictElement e none true =
        some [("x   0", childValue c3), ("y   0", childValue c2)]) := by
  constructor
  · intro e c hc ht
    rw [dictElement, hc]
    simp only [dictElementAux, stripTag]
    rw [if_pos ht]
    rfl
  · intro e c1 c2 c3 hc h1 h2 h3
    obtain ⟨t1, a1, x1, ch1⟩ := c1
    obtain ⟨t2, a2, x2, ch2⟩ := c2
    obtain ⟨t3, a3, x3, ch3⟩ := c3
    simp only [Element.tag] at h1 h2 h3
    subst h1
    subst h2
    subst h3
    rw [dictElement, hc]
    rfl

/-- Witness for C10 at a singleton child and at sibling tags x, y, x. -/
theorem dictElement_run_indexing_witness :
    dictElement (.mk "r" [] none [.mk "z" [] (some "t") []]) none true =
      some [("z   0", Value.text "t")] ∧
    dictElement (.mk "r" [] none [.mk "x" [] (some "1") [], .mk "y" [] (some "2") [],
        .mk "x" [] (some "3") []]) none true =
      some [("x   0", Value.text "3"), ("y   0", Value.text "2")] :=
  ⟨dictElement_run_indexing.1 (.mk "r" [] none [.mk "z" [] (some "t") []])
      (.mk "z" [] (some "t") []) rfl (by decide),
   dictElement_run_indexing.2 (.mk "r" [] none [.mk "x" [] (some "1") [],
      .mk "y" [] (some "2") [], .mk "x" [] (some "3") []])
      (.mk "x" [] (some "1") []) (.mk "y" [] (some "2") [])
      (.mk "x" [] (some "3") []) rfl rfl rfl rfl⟩

end Misctools
